import Mathlib

/-!
Verification of `gen_gl.py`, a single-script GL/Database matching report
generator.  The definitions below are a shallow embedding of the script:
pure Python helpers become Lean functions over `String`/`List Char`, pandas
column operations become list transformations, Python ints become `Nat`
or `Int`, the one floating-point division (`float(s) / 100.0`, applied to
short digit strings) is modelled exactly over `Rat`, and the per-file
exception handling becomes an explicit step function on the workbook
state.  Python string primitives (`strip`, `lower`, `endswith`,
`os.path.basename`, `os.path.splitext`) are embedded as structural
`List Char` functions with the same behaviour on the ASCII inputs the
script handles.
-/

/-! ## Decimal rendering of naturals (Python `str(n)` for a nonnegative int) -/

/-- The decimal digit character for `d < 10`. -/
def digitChar (d : Nat) : Char := Char.ofNat (48 + d)

/-- Fuel-indexed decimal rendering; with fuel `> n` it renders `n` fully. -/
def decCharsAux : Nat → Nat → List Char
  | 0, _ => []
  | fuel + 1, n =>
    if n < 10 then [digitChar n]
    else decCharsAux fuel (n / 10) ++ [digitChar (n % 10)]

/-- Decimal digit characters of `n`, most significant first: Python `str(n)`. -/
def decChars (n : Nat) : List Char := decCharsAux (n + 1) n

/-- Python `str(n)` for a natural number. -/
def natStr (n : Nat) : String := ⟨decChars n⟩

/-- One step of decimal parsing. -/
def parseStep (a : Nat) (c : Char) : Nat := 10 * a + (c.toNat - 48)

/-- Parse a digit string to a natural number: Python `int(s)` on digit text. -/
def parseDigits (l : List Char) : Nat := l.foldl parseStep 0

/-! ## Python string primitives over `List Char` -/

/-- Python `str.strip()`: drop leading and trailing whitespace. -/
def pyStripChars (l : List Char) : List Char :=
  ((l.dropWhile Char.isWhitespace).reverse.dropWhile Char.isWhitespace).reverse

/-- The characters after the last occurrence of `sep`, if `sep` occurs. -/
def afterLastSep (sep : Char) : List Char → Option (List Char)
  | [] => none
  | c :: rest =>
    match afterLastSep sep rest with
    | some r => some r
    | none => if c = sep then some rest else none

/-- The characters before the last occurrence of `sep`, if `sep` occurs. -/
def beforeLastSep (sep : Char) : List Char → Option (List Char)
  | [] => none
  | c :: rest =>
    match beforeLastSep sep rest with
    | some r => some (c :: r)
    | none => if c = sep then some [] else none

/-- Python `os.path.basename`: the part after the last path separator. -/
def basenameOf (s : String) : String := ⟨(afterLastSep '/' s.data).getD s.data⟩

/-- Python `os.path.splitext(s)[0]`: drop the extension at the last dot,
except when every character before that dot is itself a dot. -/
def splitextRoot (s : String) : String :=
  match beforeLastSep '.' s.data with
  | some pre => if pre.any (fun c => c ≠ '.') then ⟨pre⟩ else s
  | none => s

/-- Python `s.lower()` (ASCII). -/
def lowerChars (l : List Char) : List Char := l.map Char.toLower

/-! ## `convert_implied_decimal` (gen_gl.py lines 22-37)

`val_str = str(val).strip()`; if `val_str` is not all digits or does not
start with `"00"` the stripped text is returned, otherwise
`float(val_str) / 100.0`.  The float result on these short digit strings
is the exact rational `int(val_str) / 100`, modelled in `Rat`. -/

def convert_implied_decimal (val : String) : String ⊕ ℚ :=
  let s := pyStripChars val.data
  if (!s.isEmpty && s.all Char.isDigit) && decide (s.take 2 = ['0', '0'])
  then Sum.inr ((parseDigits s : ℚ) / 100)
  else Sum.inl ⟨s⟩

/-! ## `parse_dates_from_filename` (gen_gl.py lines 46-64)

`re.search(r"[-_]?D(?P<d>\d{6})", base, re.IGNORECASE)` captures the six
digits after the first `D`/`d` that is followed by six digits (the optional
`[-_]` prefix never changes the captured group), and
`re.search(r"JV(?P<jv>\d{8})", base, re.IGNORECASE)` captures the eight
digits after the first `J`,`V` pair followed by eight digits; the
`YYYYMMDD` capture is cut to `YYMMDD` by dropping its first two characters. -/

def isDChar (c : Char) : Bool := c = 'D' || c = 'd'

def isJChar (c : Char) : Bool := c = 'J' || c = 'j'

def isVChar (c : Char) : Bool := c = 'V' || c = 'v'

/-- Leftmost capture of `D(\d{6})`, case-insensitive. -/
def findDDate : List Char → Option (List Char)
  | [] => none
  | c :: rest =>
    if isDChar c && decide (6 ≤ rest.length) && (rest.take 6).all Char.isDigit
    then some (rest.take 6)
    else findDDate rest

/-- Leftmost capture of `JV(\d{8})`, case-insensitive. -/
def findJVDate : List Char → Option (List Char)
  | [] => none
  | [_] => none
  | c1 :: c2 :: rest =>
    if isJChar c1 && isVChar c2 && decide (8 ≤ rest.length) && (rest.take 8).all Char.isDigit
    then some (rest.take 8)
    else findJVDate (c2 :: rest)

def parse_dates_from_filename (filename : String) : Option String × Option String :=
  let base := basenameOf filename
  ((findDDate base.data).map (fun l => (⟨l⟩ : String)),
   (findJVDate base.data).map (fun l => (⟨l.drop 2⟩ : String)))

/-- A `D` marker with six digits after it sits at position `i`. -/
def dMarkerAt (l : List Char) (i : Nat) : Bool :=
  decide (i < l.length) && isDChar (l.getD i ' ') &&
    decide (6 ≤ (l.drop (i + 1)).length) && ((l.drop (i + 1)).take 6).all Char.isDigit

/-- A `JV` marker with eight digits after it sits at positions `i`, `i+1`. -/
def jvMarkerAt (l : List Char) (i : Nat) : Bool :=
  decide (i + 1 < l.length) && isJChar (l.getD i ' ') && isVChar (l.getD (i + 1) ' ') &&
    decide (8 ≤ (l.drop (i + 2)).length) && ((l.drop (i + 2)).take 8).all Char.isDigit

/-! ## `pick_latest_files_by_duplicate_d_date` (gen_gl.py lines 66-101) -/

/-- A surviving file as returned by the selector (after `_jv_int` is
popped): the file, its `d_date` and its `jv_date`. -/
structure PickedFile where
  file : String
  d_date : Option String
  jv_date : Option String
deriving DecidableEq, Repr

/-- A value of the selector's `chosen` dict, with the working `_jv_int`. -/
structure ChosenEntry where
  file : String
  d_date : Option String
  jv_date : Option String
  jvInt : Int
deriving DecidableEq, Repr

/-- `chosen[key] = value` on an insertion-ordered dict: replace in place
when the key exists, append otherwise. -/
def storeAssoc : List (String × ChosenEntry) → String → ChosenEntry → List (String × ChosenEntry)
  | [], k, v => [(k, v)]
  | (k', v') :: rest, k, v =>
    if k' = k then (k, v) :: rest else (k', v') :: storeAssoc rest k v

/-- `.csv/.trf/.txt/.xls/.xlsx`, checked on the lowercased name. -/
def validExt (fn : String) : Bool :=
  let low := lowerChars fn.data
  [".csv", ".trf", ".txt", ".xls", ".xlsx"].any (fun e => e.data.isSuffixOf low)

/-- `int(jv_date) if jv_date and jv_date.isdigit() else -1`. -/
def jvIntOf (jv : Option String) : Int :=
  match jv with
  | some j => if !j.data.isEmpty && j.data.all Char.isDigit then (parseDigits j.data : Int) else -1
  | none => -1

/-- One iteration of the selector's loop for a filename. -/
def pickStep (m : List (String × ChosenEntry)) (fn : String) : List (String × ChosenEntry) :=
  if !validExt fn then m
  else
    let pd := parse_dates_from_filename fn
    let jvInt := jvIntOf pd.2
    match pd.1 with
    | none => storeAssoc m ("__NO_D__::" ++ fn) ⟨fn, none, pd.2, jvInt⟩
    | some dd =>
      match m.lookup dd with
      | none => storeAssoc m dd ⟨fn, some dd, pd.2, jvInt⟩
      | some old =>
        if old.jvInt < jvInt then storeAssoc m dd ⟨fn, some dd, pd.2, jvInt⟩ else m

/-- Sort key: `os.path.basename(x["file"]).lower()`. -/
def sortKeyOf (e : PickedFile) : String := ⟨lowerChars (basenameOf e.file).data⟩

/-- The `PickedFile` view of a `chosen` dict value (`_jv_int` popped). -/
def toPicked (kv : String × ChosenEntry) : PickedFile :=
  PickedFile.mk kv.2.file kv.2.d_date kv.2.jv_date

/-- The selector: fold the files through the `chosen` dict, drop `_jv_int`,
sort by lowercased basename (the file system walk and `isfile` test are
outside this embedding; the input list stands for the files on disk). -/
def pick_latest_files_by_duplicate_d_date (files_list : List String) : List PickedFile :=
  let chosen := files_list.foldl pickStep []
  let results := chosen.map toPicked
  results.mergeSort (fun a b => decide (sortKeyOf a ≤ sortKeyOf b))

/-- The recognized files whose `d_date` is `some d`, in input order. -/
def candidatesOf (files : List String) (d : String) : List String :=
  files.filter (fun fn => validExt fn && decide ((parse_dates_from_filename fn).1 = some d))

/-- `jv_int` of a filename. -/
def jvIntOfFile (fn : String) : Int := jvIntOf (parse_dates_from_filename fn).2

/-- The duplicate-`d_date` resolution rule of lines 89-93 on one newcomer:
keep the current holder unless the newcomer's `jv_int` is strictly larger. -/
def kbStep (acc : Option String) (fn : String) : Option String :=
  match acc with
  | none => some fn
  | some b => if jvIntOfFile b < jvIntOfFile fn then some fn else some b

/-- The resolution rule folded over a whole group of files sharing a
`d_date`, in input order. -/
def keepBest (g : List String) : Option String := g.foldl kbStep none

/-- The `chosen` entry the loop builds for a recognized file. -/
def entryOfFile (fn : String) : ChosenEntry :=
  ⟨fn, (parse_dates_from_filename fn).1, (parse_dates_from_filename fn).2, jvIntOfFile fn⟩

/-! ## Row Key Builder (gen_gl.py lines 241-243 and 314-316)

`gen_gl.py` builds `_SearchKey` as
`search_col + "|" + (df.groupby(search_col).cumcount() + 1).astype(str)`:
each row's key is its key-column text, a bar, and one plus the number of
earlier rows carrying the same text (pandas `cumcount`). -/

/-- pandas `groupby(col).cumcount()`: for each row, the number of previously
seen rows (accumulated in `seen`) with the same value. -/
def cumcountAux : List String → List String → List Nat
  | _, [] => []
  | seen, x :: xs => seen.count x :: cumcountAux (x :: seen) xs

/-- The `_SearchKey` column built from the key-column values, in row order. -/
def buildRowKeys (l : List String) : List String :=
  List.zipWith (fun s c => s ++ "|" ++ natStr (c + 1)) l (cumcountAux [] l)

/-! ## `max_k_from_searchkey` and the report row counts
(gen_gl.py lines 116-136, 244-247, 318-320, 433, 477) -/

/-- The capture of `re.search(r"\|(\d+)\s*$", key)`: the text after the
last bar must be one or more digits followed by whitespace only; any
earlier bar cannot match because the remainder would contain a bar. -/
def extractK (s : String) : Option Nat :=
  match afterLastSep '|' s.data with
  | none => none
  | some rem =>
    let ds := rem.takeWhile Char.isDigit
    if !ds.isEmpty && (rem.dropWhile Char.isDigit).all Char.isWhitespace
    then some (parseDigits ds)
    else none

/-- `max_k_from_searchkey`: the largest trailing `|k`, defaulting to 1
when no key yields a capture (pandas `max` of an all-NaN column). -/
def max_k_from_searchkey (keys : List String) : Nat :=
  let ks := keys.filterMap extractK
  if ks.isEmpty then 1 else ks.foldl Nat.max 0

def tlf_reserved_rows : Nat := 2

def gl_reserved_rows : Nat := 10

/-- `effective_db_reserved_rows` for a nonempty database table whose
`_SearchKey` was built from key-column values `l`. -/
def effectiveDbReservedRows (l : List String) : Nat :=
  Nat.max tlf_reserved_rows (max_k_from_searchkey (buildRowKeys l))

/-- `effective_gl_reserved_rows` for a nonempty source table whose
`_SearchKey` was built from key-column values `l`. -/
def effectiveGlReservedRows (l : List String) : Nat :=
  Nat.max gl_reserved_rows (max_k_from_searchkey (buildRowKeys l))

/-- Report rows written for the database table (0 when the table is empty
and the report section is skipped; otherwise the loop of line 433 runs
`effective_db_reserved_rows` times). -/
def dbReportRowCount (l : List String) : Nat :=
  if l.isEmpty then 0 else effectiveDbReservedRows l

/-- Report rows written for the source table (loop of line 477). -/
def glReportRowCount (l : List String) : Nat :=
  if l.isEmpty then 0 else effectiveGlReservedRows l

/-- Spec-side definition (for the refinement statement of the report-row
claim): the maximum 1-based duplicate rank occurring over the rows. -/
def specMaxRank (l : List String) : Nat :=
  ((List.range l.length).map (fun i => (l.take (i + 1)).count (l.getD i ""))).foldl Nat.max 0

/-! ## Database sheet selection (gen_gl.py lines 206-230) -/

/-- `db_lookup_candidates`: `d_date`, `"D" + d_date` (when present), then
the filename-derived fallback. -/
def dbLookupCandidates (d : Option String) (fallback : String) : List String :=
  (match d with
   | some dd => [dd, "D" ++ dd]
   | none => []) ++ [fallback]

/-- First candidate that is truthy and among the database sheet names. -/
def pickDbSheet (d : Option String) (fallback : String) (sheets : List String) : Option String :=
  (dbLookupCandidates d fallback).find? (fun c => !c.isEmpty && sheets.contains c)

/-- The database table loaded for a file: the chosen sheet's rows, or the
empty `pd.DataFrame()` when no candidate matched. -/
def dbTableFor (pick : Option String) (readSheet : String → List (List String)) :
    List (List String) :=
  match pick with
  | none => []
  | some s => readSheet s

/-! ## Sheet names and per-file failure isolation
(gen_gl.py lines 106-114, 218, 322-326, 545-547)

The `try` block of lines 218-543 loads the database sub-table and the
source file (lines 219-320), then creates the output sheet (lines
322-326) and writes the layout into it (lines 328-543).  `FailPoint`
records where an exception, if any, interrupts the block: `loadFail`
aborts before `create_sheet`, `layoutFail` after it.  The `except` of
lines 545-547 swallows the exception and the loop moves on; a sheet
already created stays in `writer.book`. -/

/-- `make_unique_sheet_name`'s candidate for suffix index `i`:
`(base[:31 - len(suffix)] + suffix)[:31]` with `suffix = "_" + str(i)`. -/
def sheetCandidate (base : String) (i : Nat) : String :=
  ⟨(base.data.take (31 - ((natStr i).data.length + 1)) ++ '_' :: (natStr i).data).take 31⟩

/-- The `while name in book.sheetnames` loop, run on explicit fuel; fuel
`book.length + 1` always suffices because the candidates are pairwise
distinct while the book is finite. -/
def uniqueNameLoop : Nat → List String → String → Nat → String
  | 0, _, base, i => sheetCandidate base i
  | fuel + 1, book, base, i =>
    let name := sheetCandidate base i
    if book.contains name then uniqueNameLoop fuel book base (i + 1) else name

def make_unique_sheet_name (book : List String) (desired : String) : String :=
  let base : String := ⟨(if desired.data.isEmpty then ("Sheet" : String).data else desired.data).take 31⟩
  if book.contains base then uniqueNameLoop (book.length + 1) book base 2 else base

/-- Where, if anywhere, an exception interrupts one file's `try` block. -/
inductive FailPoint
  | noFail
  | loadFail
  | layoutFail
deriving DecidableEq, Repr

/-- One source file as seen by the processing loop: its desired sheet name
and where its processing fails. -/
structure SourceSpec where
  name : String
  failAt : FailPoint
deriving DecidableEq, Repr

/-- Effect of one iteration of the per-file loop on `writer.book`'s sheet
list: a load failure leaves the book untouched, while the sheet created at
line 324 stays in the book even when the layout writing then fails. -/
def processOneFile (book : List String) (f : SourceSpec) : List String :=
  match f.failAt with
  | FailPoint.loadFail => book
  | _ => book ++ [make_unique_sheet_name book f.name]

/-- The whole per-file loop of lines 195-547. -/
def processAll (book : List String) (fs : List SourceSpec) : List String :=
  fs.foldl processOneFile book

/-! ## The end-to-end run for the determinism claim -/

/-- `desired_sheet_name`: `chosen_d_date` when present, else the basename
without its extension. -/
def desiredSheetName (e : PickedFile) : String :=
  match e.d_date with
  | some d => d
  | none => splitextRoot (basenameOf e.file)

/-- The inputs a run depends on: the source file list, the database sheet
names, and each file's key-column values (standing for the file bytes). -/
structure RunInput where
  files : List String
  dbSheets : List String
  keyValues : String → List String

/-- The observable output modelled for the determinism claim: the sheet
names in workbook order and, per sheet, the chosen database sheet and the
source report row count. -/
def runWorkbook (inp : RunInput) : List String × List (Option String × Nat) :=
  let picked := pick_latest_files_by_duplicate_d_date inp.files
  let names := picked.foldl
    (fun book e => book ++ [make_unique_sheet_name book (desiredSheetName e)]) []
  let cells := picked.map (fun e =>
    (pickDbSheet e.d_date (desiredSheetName e) inp.dbSheets,
     glReportRowCount (inp.keyValues e.file)))
  (names, cells)

/-- Invariant of the selector's fold: after processing prefix `p`, the
`chosen` dict `m` has pairwise distinct keys, every entry with a `d_date`
sits at its own 6-character `d_date` key, and looking up a 6-character key
yields exactly the group winner under the lines-89-93 rule. -/
def SelInv (p : List String) (m : List (String × ChosenEntry)) : Prop :=
  (m.map Prod.fst).Nodup ∧
  (∀ kv ∈ m, ∀ dd, kv.2.d_date = some dd → kv.1 = dd ∧ dd.data.length = 6) ∧
  (∀ d : String, d.data.length = 6 →
    m.lookup d = Option.map entryOfFile (keepBest (candidatesOf p d)))

/-! ## Theorems -/

theorem decCharsAux_fuel_irrel :
    ∀ (f g n : Nat), n < f → n < g → decCharsAux f n = decCharsAux g n := by
  intro f
  induction f with
  | zero => intro g n hf; omega
  | succ f ih =>
    intro g n hf hg
    cases g with
    | zero => omega
    | succ g =>
      simp only [decCharsAux]
      by_cases h10 : n < 10
      · simp [h10]
      · simp only [h10, if_false]
        have hn : 0 < n := by omega
        have hdiv : n / 10 < n := Nat.div_lt_self hn (by omega)
        rw [ih g (n / 10) (by omega) (by omega)]

theorem decChars_eq (n : Nat) :
    decChars n = if n < 10 then [digitChar n]
                 else decChars (n / 10) ++ [digitChar (n % 10)] := by
  show decCharsAux (n + 1) n = _
  simp only [decCharsAux]
  by_cases h10 : n < 10
  · simp [h10]
  · simp only [h10, if_false]
    have hn : 0 < n := by omega
    have hdiv : n / 10 < n := Nat.div_lt_self hn (by omega)
    rw [decCharsAux_fuel_irrel n (n / 10 + 1) (n / 10) (by omega) (by omega)]
    rfl

theorem digitChar_toNat {d : Nat} (h : d < 10) : (digitChar d).toNat = 48 + d := by
  interval_cases d <;> rfl

theorem digitChar_isDigit {d : Nat} (h : d < 10) : (digitChar d).isDigit = true := by
  interval_cases d <;> rfl

theorem decChars_ne_nil (n : Nat) : decChars n ≠ [] := by
  rw [decChars_eq]
  by_cases h10 : n < 10 <;> simp [h10]

theorem decChars_all_digits (n : Nat) : ∀ c ∈ decChars n, c.isDigit = true := by
  induction n using Nat.strong_induction_on with
  | _ n ih =>
    rw [decChars_eq]
    by_cases h10 : n < 10
    · simp only [h10, if_true, List.mem_singleton]
      rintro c rfl
      exact digitChar_isDigit h10
    · simp only [h10, if_false, List.mem_append, List.mem_singleton]
      rintro c (hc | rfl)
      · exact ih (n / 10) (Nat.div_lt_self (by omega) (by omega)) c hc
      · exact digitChar_isDigit (Nat.mod_lt n (by omega))

theorem isDigit_ne_bar {c : Char} (h : c.isDigit = true) : c ≠ '|' := by
  intro hc
  rw [hc] at h
  exact absurd h (by decide)

theorem decChars_no_bar (n : Nat) : ∀ c ∈ decChars n, c ≠ '|' :=
  fun c hc => isDigit_ne_bar (decChars_all_digits n c hc)

theorem foldl_parseStep_decChars (n : Nat) :
    ∀ a : Nat, List.foldl parseStep a (decChars n)
      = a * 10 ^ (decChars n).length + n := by
  induction n using Nat.strong_induction_on with
  | _ n ih =>
    intro a
    rw [decChars_eq]
    by_cases h10 : n < 10
    · simp only [h10, if_true, List.foldl_cons, List.foldl_nil, List.length_singleton,
        parseStep, digitChar_toNat h10]
      omega
    · simp only [h10, if_false, List.foldl_append, List.foldl_cons, List.foldl_nil,
        List.length_append, List.length_singleton]
      rw [ih (n / 10) (Nat.div_lt_self (by omega) (by omega)) a]
      simp only [parseStep, digitChar_toNat (Nat.mod_lt n (show 0 < 10 by omega))]
      have hmod : n % 10 = 48 + n % 10 - 48 := by omega
      rw [pow_succ]
      have := Nat.div_add_mod n 10
      ring_nf
      omega

theorem parseDigits_decChars (n : Nat) : parseDigits (decChars n) = n := by
  have h := foldl_parseStep_decChars n 0
  simpa [parseDigits] using h

theorem natStr_injective : Function.Injective natStr := by
  intro m n h
  have hd : decChars m = decChars n := congrArg String.data h
  calc m = parseDigits (decChars m) := (parseDigits_decChars m).symm
    _ = parseDigits (decChars n) := by rw [hd]
    _ = n := parseDigits_decChars n

theorem length_cumcountAux : ∀ (seen l : List String), (cumcountAux seen l).length = l.length
  | _, [] => rfl
  | seen, x :: xs => by simp [cumcountAux, length_cumcountAux (x :: seen) xs]

theorem length_buildRowKeys (l : List String) : (buildRowKeys l).length = l.length := by
  simp [buildRowKeys, List.length_zipWith, length_cumcountAux]

theorem cumcountAux_getD :
    ∀ (seen l : List String) (i : Nat), i < l.length →
      (cumcountAux seen l).getD i 0 = (seen ++ l.take i).count (l.getD i "")
  | _, [], i, h => by simp at h
  | seen, x :: xs, 0, _ => by simp [cumcountAux]
  | seen, x :: xs, i + 1, h => by
    have ih := cumcountAux_getD (x :: seen) xs i (by simpa using h)
    simp only [cumcountAux, List.getD_cons_succ, List.take_succ_cons]
    rw [ih]
    simp only [List.count_append, List.count_cons, List.cons_append]
    omega

theorem buildRowKeys_getD (l : List String) (i : Nat) (h : i < l.length) :
    (buildRowKeys l).getD i "" =
      (l.getD i "") ++ "|" ++ natStr ((l.take (i + 1)).count (l.getD i "")) := by
  have hb : i < (buildRowKeys l).length := by rw [length_buildRowKeys]; exact h
  have hc : i < (cumcountAux [] l).length := by rw [length_cumcountAux]; exact h
  rw [List.getD_eq_getElem _ _ hb]
  simp only [buildRowKeys, List.getElem_zipWith]
  rw [← List.getD_eq_getElem l "" h, ← List.getD_eq_getElem _ 0 hc]
  rw [cumcountAux_getD [] l i h]
  have hone : List.count (l[i]) ((some l[i]).toList) = 1 := by simp
  have hstep : (l.take (i + 1)).count (l.getD i "") = (l.take i).count (l.getD i "") + 1 := by
    rw [List.take_succ, List.getElem?_eq_getElem h, List.getD_eq_getElem l "" h,
      List.count_append, hone]
  rw [hstep]
  simp

/-- Splitting at the final bar is unambiguous when the tails contain no bar. -/
theorem append_bar_cancel :
    ∀ (a : List Char) {b d1 d2 : List Char},
      (∀ c ∈ d1, c ≠ '|') → (∀ c ∈ d2, c ≠ '|') →
      a ++ '|' :: d1 = b ++ '|' :: d2 → a = b ∧ d1 = d2 := by
  intro a
  induction a with
  | nil =>
    intro b d1 d2 h1 _ heq
    cases b with
    | nil => simpa using heq
    | cons y b' =>
      simp only [List.nil_append, List.cons_append, List.cons.injEq] at heq
      exfalso
      exact h1 '|' (heq.2 ▸ List.mem_append_right b' (List.mem_cons_self _ _)) rfl
  | cons x a' ih =>
    intro b d1 d2 h1 h2 heq
    cases b with
    | nil =>
      simp only [List.cons_append, List.nil_append, List.cons.injEq] at heq
      exfalso
      exact h2 '|' (heq.2 ▸ List.mem_append_right a' (List.mem_cons_self _ _)) rfl
    | cons y b' =>
      simp only [List.cons_append, List.cons.injEq] at heq
      obtain ⟨rfl, htail⟩ := heq
      obtain ⟨rfl, rfl⟩ := ih h1 h2 htail
      exact ⟨rfl, rfl⟩

theorem rank_strict_mono (l : List String) (i j : Nat) (hij : i < j) (hj : j < l.length)
    (hv : l.getD i "" = l.getD j "") :
    (l.take (i + 1)).count (l.getD i "") < (l.take (j + 1)).count (l.getD j "") := by
  have hone : List.count (l[j]) ((some l[j]).toList) = 1 := by simp
  have hstep : (l.take (j + 1)).count (l.getD j "") = (l.take j).count (l.getD j "") + 1 := by
    rw [List.take_succ, List.getElem?_eq_getElem hj, List.getD_eq_getElem l "" hj,
      List.count_append, hone]
  rw [hstep, hv]
  have hpre : l.take (i + 1) = (l.take j).take (i + 1) := by
    rw [List.take_take]
    congr 1
    omega
  have hsub : (l.take (i + 1)).Sublist (l.take j) := by
    rw [hpre]
    exact List.take_sublist _ _
  exact Nat.lt_succ_of_le (hsub.count_le _)

theorem natStr_data (n : Nat) : (natStr n).data = decChars n := rfl

theorem bar_data : ("|" : String).data = ['|'] := rfl

/-- C1: for every table and designated key column, the built RowKey of each
row equals the key-column text, a bar separator, and the 1-based count of
occurrences of that same text among rows at or before it in row order; and
for key-column values `["A","B","A","A"]` the built keys are exactly
`["A|1","B|1","A|2","A|3"]` in that row order. -/
theorem rowkey_build_spec :
    (∀ (l : List String) (i : Nat), i < l.length →
      (buildRowKeys l).getD i "" =
        (l.getD i "") ++ "|" ++ natStr ((l.take (i + 1)).count (l.getD i ""))) ∧
    buildRowKeys ["A", "B", "A", "A"] = ["A|1", "B|1", "A|2", "A|3"] :=
  ⟨buildRowKeys_getD, by decide⟩

theorem rowkey_build_spec_witness :
    (3 : Nat) < (["A", "B", "A", "A"] : List String).length ∧
    (buildRowKeys ["A", "B", "A", "A"]).getD 3 "" =
      ((["A", "B", "A", "A"] : List String).getD 3 "") ++ "|" ++
        natStr (((["A", "B", "A", "A"] : List String).take 4).count
          ((["A", "B", "A", "A"] : List String).getD 3 "")) :=
  ⟨by decide, rowkey_build_spec.1 ["A", "B", "A", "A"] 3 (by decide)⟩

/-- C2: on every table on which RowKeys are built, no two rows receive the
same RowKey, and among rows sharing the same key-column text the assigned
rank (the 1-based occurrence count) strictly increases in row order, so
ranks follow first-seen row order. -/
theorem rowkey_uniqueness (l : List String) (i j : Nat) (hij : i < j) (hj : j < l.length) :
    (buildRowKeys l).getD i "" ≠ (buildRowKeys l).getD j "" ∧
    (l.getD i "" = l.getD j "" →
      (l.take (i + 1)).count (l.getD i "") < (l.take (j + 1)).count (l.getD j "")) := by
  have hi : i < l.length := lt_trans hij hj
  refine ⟨?_, rank_strict_mono l i j hij hj⟩
  intro heq
  rw [buildRowKeys_getD l i hi, buildRowKeys_getD l j hj] at heq
  have hd : (l.getD i "").data ++ '|' :: decChars ((l.take (i + 1)).count (l.getD i ""))
      = (l.getD j "").data ++ '|' :: decChars ((l.take (j + 1)).count (l.getD j "")) := by
    have h0 := congrArg String.data heq
    simp only [String.data_append, bar_data, natStr_data, List.append_assoc,
      List.singleton_append] at h0
    exact h0
  obtain ⟨hv, hc⟩ := append_bar_cancel _ (decChars_no_bar _) (decChars_no_bar _) hd
  have hveq : l.getD i "" = l.getD j "" := String.ext hv
  have hceq : (l.take (i + 1)).count (l.getD i "")
      = (l.take (j + 1)).count (l.getD j "") := natStr_injective (String.ext hc)
  have hlt := rank_strict_mono l i j hij hj hveq
  omega

theorem rowkey_uniqueness_witness :
    ((0 : Nat) < 2 ∧ (2 : Nat) < (["A", "B", "A", "A"] : List String).length) ∧
    ((buildRowKeys ["A", "B", "A", "A"]).getD 0 "" ≠ (buildRowKeys ["A", "B", "A", "A"]).getD 2 "" ∧
     ((["A", "B", "A", "A"] : List String).getD 0 "" = (["A", "B", "A", "A"] : List String).getD 2 "" →
       ((["A", "B", "A", "A"] : List String).take 1).count ((["A", "B", "A", "A"] : List String).getD 0 "") <
       ((["A", "B", "A", "A"] : List String).take 3).count ((["A", "B", "A", "A"] : List String).getD 2 ""))) :=
  ⟨⟨by decide, by decide⟩, rowkey_uniqueness ["A", "B", "A", "A"] 0 2 (by decide) (by decide)⟩

/-! ## C3: `convert_implied_decimal` -/

theorem convert_implied_decimal_eq (val : String) :
    convert_implied_decimal val =
      if pyStripChars val.data ≠ [] ∧ (∀ c ∈ pyStripChars val.data, c.isDigit = true) ∧
          (pyStripChars val.data).take 2 = ['0', '0']
      then Sum.inr ((parseDigits (pyStripChars val.data) : ℚ) / 100)
      else Sum.inl ⟨pyStripChars val.data⟩ := by
  simp only [convert_implied_decimal]
  by_cases h : pyStripChars val.data ≠ [] ∧ (∀ c ∈ pyStripChars val.data, c.isDigit = true) ∧
      (pyStripChars val.data).take 2 = ['0', '0']
  · rw [if_pos h]
    have hb : ((!(pyStripChars val.data).isEmpty && (pyStripChars val.data).all Char.isDigit) &&
        decide ((pyStripChars val.data).take 2 = ['0', '0'])) = true := by
      simp only [Bool.and_eq_true, Bool.not_eq_true', List.isEmpty_eq_false,
        List.all_eq_true, decide_eq_true_eq]
      exact ⟨⟨h.1, h.2.1⟩, h.2.2⟩
    rw [if_pos hb]
  · rw [if_neg h]
    have hb : ((!(pyStripChars val.data).isEmpty && (pyStripChars val.data).all Char.isDigit) &&
        decide ((pyStripChars val.data).take 2 = ['0', '0'])) = false := by
      rw [Bool.eq_false_iff]
      intro hc
      apply h
      simp only [Bool.and_eq_true, Bool.not_eq_true', List.isEmpty_eq_false,
        List.all_eq_true, decide_eq_true_eq] at hc
      exact ⟨hc.1.1, hc.1.2, hc.2⟩
    rw [if_neg (by simp [hb])]

/-- C3 counterexample: the stated claim says every value that is not
all-digits-starting-with-00 passes through unchanged, but the code returns
`str(val).strip()`, so the input `" 50"` comes back as `"50"`. -/
theorem implied_decimal_unchanged_counterexample :
    convert_implied_decimal " 50" = Sum.inl "50" ∧
    convert_implied_decimal " 50" ≠ Sum.inl " 50" :=
  ⟨rfl, by decide⟩

/-- C3 (amended): the conversion divides the parsed value by 100 exactly
when the stripped text consists only of digits and starts with `"00"`;
every other value is returned as its whitespace-stripped text; in
particular `"0050"` maps to `0.5`, `"50"` is returned as text `"50"`, and
`"00AB"` is returned unchanged. -/
theorem implied_decimal_spec :
    (∀ val : String,
      (pyStripChars val.data ≠ [] ∧ (∀ c ∈ pyStripChars val.data, c.isDigit = true) ∧
          (pyStripChars val.data).take 2 = ['0', '0'] →
        convert_implied_decimal val = Sum.inr ((parseDigits (pyStripChars val.data) : ℚ) / 100)) ∧
      (¬ (pyStripChars val.data ≠ [] ∧ (∀ c ∈ pyStripChars val.data, c.isDigit = true) ∧
          (pyStripChars val.data).take 2 = ['0', '0']) →
        convert_implied_decimal val = Sum.inl ⟨pyStripChars val.data⟩)) ∧
    convert_implied_decimal "0050" = Sum.inr ((1 : ℚ) / 2) ∧
    convert_implied_decimal "50" = Sum.inl "50" ∧
    convert_implied_decimal "00AB" = Sum.inl "00AB" := by
  refine ⟨fun val => ⟨fun h => ?_, fun h => ?_⟩, ?_, by decide, by decide⟩
  · rw [convert_implied_decimal_eq, if_pos h]
  · rw [convert_implied_decimal_eq, if_neg h]
  · have h : convert_implied_decimal "0050" = Sum.inr ((50 : ℚ) / 100) := rfl
    rw [h]
    norm_num

theorem implied_decimal_spec_witness :
    convert_implied_decimal "007" = Sum.inr ((parseDigits (pyStripChars ("007" : String).data) : ℚ) / 100) :=
  (implied_decimal_spec.1 "007").1 (by decide)

/-! ## C5: `parse_dates_from_filename` -/

theorem dMarkerAt_cons (c : Char) (l : List Char) (i : Nat) :
    dMarkerAt (c :: l) (i + 1) = dMarkerAt l i := by
  simp [dMarkerAt, List.getD_cons_succ, Nat.succ_lt_succ_iff]

theorem jvMarkerAt_cons (c : Char) (l : List Char) (i : Nat) :
    jvMarkerAt (c :: l) (i + 1) = jvMarkerAt l i := by
  simp [jvMarkerAt, List.getD_cons_succ, Nat.succ_lt_succ_iff]

theorem findDDate_some :
    ∀ (l : List Char) (r : List Char), findDDate l = some r →
      ∃ i, dMarkerAt l i = true ∧ r = (l.drop (i + 1)).take 6 := by
  intro l
  induction l with
  | nil => intro r h; simp [findDDate] at h
  | cons c rest ih =>
    intro r h
    simp only [findDDate] at h
    by_cases hc : (isDChar c && decide (6 ≤ rest.length) && (rest.take 6).all Char.isDigit) = true
    · rw [if_pos hc] at h
      refine ⟨0, ?_, ?_⟩
      · simp only [Bool.and_eq_true, decide_eq_true_eq] at hc
        simp [dMarkerAt, hc.1.1, hc.1.2, hc.2]
      · simpa using h.symm
    · rw [if_neg hc] at h
      obtain ⟨i, hm, hr⟩ := ih r h
      exact ⟨i + 1, by rw [dMarkerAt_cons]; exact hm, by simpa using hr⟩

theorem findDDate_none :
    ∀ l : List Char, findDDate l = none → ∀ i, dMarkerAt l i = false := by
  intro l
  induction l with
  | nil => intro _ i; simp [dMarkerAt]
  | cons c rest ih =>
    intro h i
    simp only [findDDate] at h
    by_cases hc : (isDChar c && decide (6 ≤ rest.length) && (rest.take 6).all Char.isDigit) = true
    · rw [if_pos hc] at h; exact absurd h (by simp)
    · rw [if_neg hc] at h
      cases i with
      | zero =>
        rw [Bool.eq_false_iff]
        intro h0
        apply hc
        simp only [dMarkerAt, Bool.and_eq_true, decide_eq_true_eq] at h0
        simp only [List.getD_cons_zero, List.drop_succ_cons, List.drop_zero] at h0
        simp [h0.1.1.2, h0.1.2, h0.2]
      | succ i => rw [dMarkerAt_cons]; exact ih h i

theorem findJVDate_some :
    ∀ (l : List Char) (r : List Char), findJVDate l = some r →
      ∃ i, jvMarkerAt l i = true ∧ r = (l.drop (i + 2)).take 8 := by
  intro l
  induction l with
  | nil => intro r h; simp [findJVDate] at h
  | cons c1 rest ih =>
    intro r h
    cases rest with
    | nil => simp [findJVDate] at h
    | cons c2 rest2 =>
      simp only [findJVDate] at h
      by_cases hc : (isJChar c1 && isVChar c2 && decide (8 ≤ rest2.length) &&
          (rest2.take 8).all Char.isDigit) = true
      · rw [if_pos hc] at h
        refine ⟨0, ?_, ?_⟩
        · simp only [Bool.and_eq_true, decide_eq_true_eq] at hc
          simp [jvMarkerAt, hc.1.1.1, hc.1.1.2, hc.1.2, hc.2]
        · simpa using h.symm
      · rw [if_neg hc] at h
        obtain ⟨i, hm, hr⟩ := ih r h
        exact ⟨i + 1, by rw [jvMarkerAt_cons]; exact hm, by simpa using hr⟩

theorem findJVDate_none :
    ∀ l : List Char, findJVDate l = none → ∀ i, jvMarkerAt l i = false := by
  intro l
  induction l with
  | nil => intro _ i; simp [jvMarkerAt]
  | cons c1 rest ih =>
    intro h i
    cases rest with
    | nil =>
      cases i with
      | zero => simp [jvMarkerAt]
      | succ i => rw [jvMarkerAt_cons]; simp [jvMarkerAt]
    | cons c2 rest2 =>
      simp only [findJVDate] at h
      by_cases hc : (isJChar c1 && isVChar c2 && decide (8 ≤ rest2.length) &&
          (rest2.take 8).all Char.isDigit) = true
      · rw [if_pos hc] at h; exact absurd h (by simp)
      · rw [if_neg hc] at h
        cases i with
        | zero =>
          rw [Bool.eq_false_iff]
          intro h0
          apply hc
          simp only [jvMarkerAt, Bool.and_eq_true, decide_eq_true_eq] at h0
          simp only [List.getD_cons_zero, List.getD_cons_succ, List.drop_succ_cons,
            List.drop_zero] at h0
          simp [h0.1.1.1.2, h0.1.1.2, h0.1.2, h0.2]
        | succ i => rw [jvMarkerAt_cons]; exact ih h i

/-- C5: for every filename, `dateA`, when present, is the 6-digit string
following a `D` marker (case-insensitive, in the basename), `dateB`, when
present, is the 8-digit string following `JV` cut to its last 6 digits,
and an absent component means no such marker exists; and the example
filename parses to `dateA = "251110"`, `dateB = "251221"`. -/
theorem date_parser_spec :
    (∀ filename : String,
      (∀ d : String, (parse_dates_from_filename filename).1 = some d →
        d.length = 6 ∧ (∀ c ∈ d.data, c.isDigit = true) ∧
        ∃ i, dMarkerAt (basenameOf filename).data i = true ∧
          d.data = ((basenameOf filename).data.drop (i + 1)).take 6) ∧
      ((parse_dates_from_filename filename).1 = none →
        ∀ i, dMarkerAt (basenameOf filename).data i = false) ∧
      (∀ jv : String, (parse_dates_from_filename filename).2 = some jv →
        jv.length = 6 ∧ (∀ c ∈ jv.data, c.isDigit = true) ∧
        ∃ i, jvMarkerAt (basenameOf filename).data i = true ∧
          jv.data = (((basenameOf filename).data.drop (i + 2)).take 8).drop 2) ∧
      ((parse_dates_from_filename filename).2 = none →
        ∀ i, jvMarkerAt (basenameOf filename).data i = false)) ∧
    parse_dates_from_filename "GLJV20251221_ATMI_SCB_000_ATMI1-D251110.csv"
      = (some "251110", some "251221") := by
  refine ⟨fun filename => ⟨?_, ?_, ?_, ?_⟩, by decide⟩
  · intro d hd
    simp only [parse_dates_from_filename, Option.map_eq_some'] at hd
    obtain ⟨r, hr, rfl⟩ := hd
    obtain ⟨i, hm, rfl⟩ := findDDate_some _ r hr
    simp only [dMarkerAt, Bool.and_eq_true, decide_eq_true_eq] at hm
    refine ⟨?_, ?_, i, ?_, rfl⟩
    · show (((basenameOf filename).data.drop (i + 1)).take 6).length = 6
      rw [List.length_take]
      omega
    · intro c hc
      have hall := hm.2
      rw [List.all_eq_true] at hall
      exact hall c hc
    · simp only [dMarkerAt, Bool.and_eq_true, decide_eq_true_eq]
      exact hm
  · intro hnone i
    simp only [parse_dates_from_filename, Option.map_eq_none'] at hnone
    exact findDDate_none _ hnone i
  · intro jv hjv
    simp only [parse_dates_from_filename, Option.map_eq_some'] at hjv
    obtain ⟨r, hr, rfl⟩ := hjv
    obtain ⟨i, hm, rfl⟩ := findJVDate_some _ r hr
    simp only [jvMarkerAt, Bool.and_eq_true, decide_eq_true_eq] at hm
    refine ⟨?_, ?_, i, ?_, rfl⟩
    · show ((((basenameOf filename).data.drop (i + 2)).take 8).drop 2).length = 6
      rw [List.length_drop, List.length_take]
      omega
    · intro c hc
      have hall := hm.2
      rw [List.all_eq_true] at hall
      exact hall c (List.mem_of_mem_drop hc)
    · simp only [jvMarkerAt, Bool.and_eq_true, decide_eq_true_eq]
      exact hm
  · intro hnone i
    simp only [parse_dates_from_filename, Option.map_eq_none'] at hnone
    exact findJVDate_none _ hnone i

theorem date_parser_spec_witness :
    (parse_dates_from_filename "GLJV20251221_ATMI_SCB_000_ATMI1-D251110.csv").1
        = some "251110" ∧
    (("251110" : String).length = 6 ∧ (∀ c ∈ ("251110" : String).data, c.isDigit = true) ∧
      ∃ i, dMarkerAt (basenameOf "GLJV20251221_ATMI_SCB_000_ATMI1-D251110.csv").data i = true ∧
        ("251110" : String).data =
          ((basenameOf "GLJV20251221_ATMI_SCB_000_ATMI1-D251110.csv").data.drop (i + 1)).take 6) :=
  ⟨by decide,
   (date_parser_spec.1 "GLJV20251221_ATMI_SCB_000_ATMI1-D251110.csv").1 "251110" (by decide)⟩

/-! ## C4 and C10: the latest-file selector -/

theorem storeAssoc_lookup_self (m : List (String × ChosenEntry)) (k : String) (v : ChosenEntry) :
    (storeAssoc m k v).lookup k = some v := by
  induction m with
  | nil => simp [storeAssoc]
  | cons kv rest ih =>
    obtain ⟨k', v'⟩ := kv
    by_cases h : k' = k
    · simp [storeAssoc, h]
    · simp only [storeAssoc, if_neg h, List.lookup]
      cases hbeq : k == k' with
      | true => simp at hbeq; exact absurd hbeq.symm h
      | false => exact ih

theorem storeAssoc_lookup_ne (m : List (String × ChosenEntry)) (k k' : String) (v : ChosenEntry)
    (h : k' ≠ k) : (storeAssoc m k v).lookup k' = m.lookup k' := by
  induction m with
  | nil =>
    simp only [storeAssoc, List.lookup]
    cases hbeq : k' == k with
    | true => simp at hbeq; exact absurd hbeq h
    | false => rfl
  | cons kv rest ih =>
    obtain ⟨k0, v0⟩ := kv
    by_cases h0 : k0 = k
    · subst h0
      simp only [storeAssoc, if_pos rfl, List.lookup]
      cases hbeq : k' == k0 with
      | true => simp at hbeq; exact absurd hbeq h
      | false => rfl
    · simp only [storeAssoc, if_neg h0, List.lookup]
      cases hbeq : k' == k0 with
      | true => rfl
      | false => exact ih

theorem mem_storeAssoc (m : List (String × ChosenEntry)) (k : String) (v : ChosenEntry)
    (kv : String × ChosenEntry) (h : kv ∈ storeAssoc m k v) : kv = (k, v) ∨ kv ∈ m := by
  induction m with
  | nil => simpa [storeAssoc] using h
  | cons kv0 rest ih =>
    obtain ⟨k0, v0⟩ := kv0
    by_cases h0 : k0 = k
    · simp only [storeAssoc, if_pos h0, List.mem_cons] at h
      rcases h with h | h
      · exact Or.inl h
      · exact Or.inr (List.mem_cons_of_mem _ h)
    · simp only [storeAssoc, if_neg h0, List.mem_cons] at h
      rcases h with h | h
      · exact Or.inr (by rw [h]; exact List.mem_cons_self _ _)
      · rcases ih h with h' | h'
        · exact Or.inl h'
        · exact Or.inr (List.mem_cons_of_mem _ h')

theorem storeAssoc_fst_subset (m : List (String × ChosenEntry)) (k : String) (v : ChosenEntry)
    (x : String) (h : x ∈ (storeAssoc m k v).map Prod.fst) :
    x = k ∨ x ∈ m.map Prod.fst := by
  rw [List.mem_map] at h
  obtain ⟨kv, hkv, rfl⟩ := h
  rcases mem_storeAssoc m k v kv hkv with h | h
  · exact Or.inl (by rw [h])
  · exact Or.inr (List.mem_map_of_mem _ h)

theorem storeAssoc_fst_nodup (m : List (String × ChosenEntry)) (k : String) (v : ChosenEntry)
    (h : (m.map Prod.fst).Nodup) : ((storeAssoc m k v).map Prod.fst).Nodup := by
  induction m with
  | nil => simp [storeAssoc]
  | cons kv0 rest ih =>
    obtain ⟨k0, v0⟩ := kv0
    simp only [List.map_cons, List.nodup_cons] at h
    by_cases h0 : k0 = k
    · have hs : storeAssoc ((k0, v0) :: rest) k v = (k, v) :: rest := by
        simp [storeAssoc, h0]
      rw [hs]
      simp only [List.map_cons, List.nodup_cons]
      exact h0 ▸ h
    · simp only [storeAssoc, if_neg h0, List.map_cons, List.nodup_cons]
      refine ⟨?_, ih h.2⟩
      intro hc
      rcases storeAssoc_fst_subset rest k v k0 hc with h' | h'
      · exact h0 h'
      · exact h.1 h'

theorem lookup_eq_none_keys (m : List (String × ChosenEntry)) (k : String)
    (h : m.lookup k = none) : ∀ kv ∈ m, kv.1 ≠ k := by
  induction m with
  | nil => simp
  | cons kv0 rest ih =>
    obtain ⟨k0, v0⟩ := kv0
    intro kv hkv
    simp only [List.lookup] at h
    rcases hbeq : (k == k0) with _ | _
    · rw [hbeq] at h
      rcases List.mem_cons.mp hkv with h' | h'
      · rw [h']
        simp only [ne_eq]
        intro hx
        rw [hx] at hbeq
        simp at hbeq
      · exact ih h kv h'
    · rw [hbeq] at h
      exact absurd h (by simp)

theorem lookup_mem (m : List (String × ChosenEntry)) (k : String) (v : ChosenEntry)
    (h : m.lookup k = some v) : (k, v) ∈ m := by
  induction m with
  | nil => simp [List.lookup] at h
  | cons kv0 rest ih =>
    obtain ⟨k0, v0⟩ := kv0
    simp only [List.lookup] at h
    rcases hbeq : (k == k0) with _ | _
    · rw [hbeq] at h
      exact List.mem_cons_of_mem _ (ih h)
    · rw [hbeq] at h
      simp only [Option.some.injEq] at h
      have hk : k = k0 := by simpa using hbeq
      subst hk
      subst h
      exact List.mem_cons_self _ _

theorem keepBest_aux (rest : List String) :
    ∀ a : String,
      ∃ b, rest.foldl kbStep (some a) = some b ∧
        ((b = a ∧ ∀ x ∈ rest, jvIntOfFile x ≤ jvIntOfFile a) ∨
         (∃ r1 r2, rest = r1 ++ b :: r2 ∧ jvIntOfFile a < jvIntOfFile b ∧
           (∀ x ∈ r1, jvIntOfFile x < jvIntOfFile b) ∧
           (∀ x ∈ r2, jvIntOfFile x ≤ jvIntOfFile b))) := by
  induction rest with
  | nil => intro a; exact ⟨a, rfl, Or.inl ⟨rfl, by simp⟩⟩
  | cons fn rest' ih =>
    intro a
    by_cases hlt : jvIntOfFile a < jvIntOfFile fn
    · have hstep : (fn :: rest').foldl kbStep (some a) = rest'.foldl kbStep (some fn) := by
        simp [kbStep, hlt]
      obtain ⟨b, hb, hcase⟩ := ih fn
      refine ⟨b, by rw [hstep]; exact hb, Or.inr ?_⟩
      rcases hcase with ⟨rfl, hall⟩ | ⟨r1, r2, hsplit, hafn, hr1, hr2⟩
      · exact ⟨[], rest', by simp, hlt, by simp, hall⟩
      · refine ⟨fn :: r1, r2, by rw [hsplit]; rfl, lt_trans hlt hafn, ?_, hr2⟩
        intro x hx
        rcases List.mem_cons.mp hx with rfl | hx
        · exact hafn
        · exact hr1 x hx
    · have hstep : (fn :: rest').foldl kbStep (some a) = rest'.foldl kbStep (some a) := by
        simp [kbStep, hlt]
      obtain ⟨b, hb, hcase⟩ := ih a
      refine ⟨b, by rw [hstep]; exact hb, ?_⟩
      rcases hcase with ⟨rfl, hall⟩ | ⟨r1, r2, hsplit, hab, hr1, hr2⟩
      · refine Or.inl ⟨rfl, ?_⟩
        intro x hx
        rcases List.mem_cons.mp hx with rfl | hx
        · omega
        · exact hall x hx
      · refine Or.inr ⟨fn :: r1, r2, by rw [hsplit]; rfl, hab, ?_, hr2⟩
        intro x hx
        rcases List.mem_cons.mp hx with rfl | hx
        · omega
        · exact hr1 x hx

theorem keepBest_spec (g : List String) (hne : g ≠ []) :
    ∃ b, keepBest g = some b ∧ ∃ g1 g2, g = g1 ++ b :: g2 ∧
      (∀ x ∈ g1, jvIntOfFile x < jvIntOfFile b) ∧
      (∀ x ∈ g2, jvIntOfFile x ≤ jvIntOfFile b) := by
  cases g with
  | nil => exact absurd rfl hne
  | cons fn rest =>
    obtain ⟨b, hb, hcase⟩ := keepBest_aux rest fn
    have hkb : keepBest (fn :: rest) = some b := hb
    rcases hcase with ⟨rfl, hall⟩ | ⟨r1, r2, hsplit, hafn, hr1, hr2⟩
    · exact ⟨b, hkb, [], rest, by simp, by simp, hall⟩
    · refine ⟨b, hkb, fn :: r1, r2, by rw [hsplit]; rfl, ?_, hr2⟩
      intro x hx
      rcases List.mem_cons.mp hx with rfl | hx
      · exact hafn
      · exact hr1 x hx

theorem keepBest_max (g : List String) (b : String) (hb : keepBest g = some b) :
    b ∈ g ∧ ∀ x ∈ g, jvIntOfFile x ≤ jvIntOfFile b := by
  have hne : g ≠ [] := by
    intro h
    rw [h] at hb
    simp [keepBest] at hb
  obtain ⟨b', hb', g1, g2, hsplit, h1, h2⟩ := keepBest_spec g hne
  rw [hb] at hb'
  obtain rfl : b = b' := by injection hb'
  constructor
  · rw [hsplit]
    exact List.mem_append_right _ (List.mem_cons_self _ _)
  · intro x hx
    rw [hsplit] at hx
    rcases List.mem_append.mp hx with hx | hx
    · exact le_of_lt (h1 x hx)
    · rcases List.mem_cons.mp hx with rfl | hx
      · exact le_refl _
      · exact h2 x hx

theorem keepBest_append (g : List String) (fn : String) :
    keepBest (g ++ [fn]) = kbStep (keepBest g) fn := by
  simp [keepBest, List.foldl_append]

theorem parse_d_length (fn d : String) (h : (parse_dates_from_filename fn).1 = some d) :
    d.data.length = 6 := by
  simp only [parse_dates_from_filename, Option.map_eq_some'] at h
  obtain ⟨r, hr, rfl⟩ := h
  obtain ⟨i, hm, rfl⟩ := findDDate_some _ r hr
  simp only [dMarkerAt, Bool.and_eq_true, decide_eq_true_eq] at hm
  show (((basenameOf fn).data.drop (i + 1)).take 6).length = 6
  rw [List.length_take]
  omega

theorem candidatesOf_append (p : List String) (fn : String) (d : String) :
    candidatesOf (p ++ [fn]) d =
      candidatesOf p d ++
        (if validExt fn && decide ((parse_dates_from_filename fn).1 = some d)
         then [fn] else []) := by
  simp only [candidatesOf, List.filter_append]
  congr 1
  simp [List.filter_cons]

theorem selInv_nil : SelInv [] [] := by
  refine ⟨by simp, by simp, ?_⟩
  intro d _
  simp [candidatesOf, keepBest]

theorem selInv_step (p : List String) (m : List (String × ChosenEntry)) (fn : String)
    (h : SelInv p m) : SelInv (p ++ [fn]) (pickStep m fn) := by
  obtain ⟨h0, h1, h2⟩ := h
  by_cases hv : validExt fn = true
  case neg =>
    have hvf : validExt fn = false := by simpa using hv
    have hstep : pickStep m fn = m := by simp [pickStep, hvf]
    rw [hstep]
    refine ⟨h0, h1, ?_⟩
    intro d hd
    rw [candidatesOf_append]
    simpa [hvf] using h2 d hd
  case pos =>
    cases hparse : (parse_dates_from_filename fn).1 with
    | none =>
      have hstep : pickStep m fn = storeAssoc m ("__NO_D__::" ++ fn)
          ⟨fn, none, (parse_dates_from_filename fn).2,
            jvIntOf (parse_dates_from_filename fn).2⟩ := by
        simp [pickStep, hv, hparse]
      rw [hstep]
      refine ⟨storeAssoc_fst_nodup _ _ _ h0, ?_, ?_⟩
      · intro kv hkv dd hdd
        rcases mem_storeAssoc _ _ _ kv hkv with rfl | hkv'
        · simp at hdd
        · exact h1 kv hkv' dd hdd
      · intro d hd
        have hlen : ("__NO_D__::" ++ fn).data.length = 10 + fn.data.length := by
          rw [String.data_append, List.length_append]
          rfl
        have hne : d ≠ "__NO_D__::" ++ fn := by
          intro heq
          have : d.data.length = ("__NO_D__::" ++ fn).data.length := by rw [heq]
          omega
        rw [storeAssoc_lookup_ne _ _ _ _ hne]
        rw [candidatesOf_append]
        simpa [hparse] using h2 d hd
    | some dd =>
      have hdd6 : dd.data.length = 6 := parse_d_length fn dd hparse
      cases hlook : List.lookup dd m with
      | none =>
        have hkbn : Option.map entryOfFile (keepBest (candidatesOf p dd)) = none := by
          rw [← h2 dd hdd6]
          exact hlook
        have hcand : candidatesOf p dd = [] := by
          by_contra hcne
          obtain ⟨b, hb, _⟩ := keepBest_spec _ hcne
          rw [hb] at hkbn
          simp at hkbn
        have hstep : pickStep m fn = storeAssoc m dd
            ⟨fn, some dd, (parse_dates_from_filename fn).2,
              jvIntOf (parse_dates_from_filename fn).2⟩ := by
          simp [pickStep, hv, hparse, hlook]
        rw [hstep]
        refine ⟨storeAssoc_fst_nodup _ _ _ h0, ?_, ?_⟩
        · intro kv hkv dd' hdd'
          rcases mem_storeAssoc _ _ _ kv hkv with rfl | hkv'
          · simp only [Option.some.injEq] at hdd'
            exact ⟨hdd'.symm ▸ rfl, hdd' ▸ hdd6⟩
          · exact h1 kv hkv' dd' hdd'
        · intro d hd
          by_cases hdq : d = dd
          · subst hdq
            rw [storeAssoc_lookup_self, candidatesOf_append, hcand]
            simp [hv, hparse, keepBest, kbStep, entryOfFile, jvIntOfFile]
          · rw [storeAssoc_lookup_ne _ _ _ _ hdq, candidatesOf_append]
            have hcf : decide ((parse_dates_from_filename fn).1 = some d) = false := by
              simp only [hparse, decide_eq_false_iff_not, Option.some.injEq]
              exact fun hx => hdq hx.symm
            simpa [hcf] using h2 d hd
      | some old =>
        have hmap : some old = Option.map entryOfFile (keepBest (candidatesOf p dd)) := by
          rw [← h2 dd hdd6]
          exact hlook.symm
        obtain ⟨b, hkb, hold⟩ : ∃ b, keepBest (candidatesOf p dd) = some b ∧
            old = entryOfFile b := by
          cases hkb : keepBest (candidatesOf p dd) with
          | none => rw [hkb] at hmap; simp at hmap
          | some b =>
            rw [hkb] at hmap
            simp only [Option.map_some', Option.some.injEq] at hmap
            exact ⟨b, rfl, hmap⟩
        have holdjv : old.jvInt = jvIntOfFile b := by rw [hold]; rfl
        by_cases hcmp : old.jvInt < jvIntOf (parse_dates_from_filename fn).2
        · have hstep : pickStep m fn = storeAssoc m dd
              ⟨fn, some dd, (parse_dates_from_filename fn).2,
                jvIntOf (parse_dates_from_filename fn).2⟩ := by
            simp [pickStep, hv, hparse, hlook, hcmp]
          rw [hstep]
          refine ⟨storeAssoc_fst_nodup _ _ _ h0, ?_, ?_⟩
          · intro kv hkv dd' hdd'
            rcases mem_storeAssoc _ _ _ kv hkv with rfl | hkv'
            · simp only [Option.some.injEq] at hdd'
              exact ⟨hdd'.symm ▸ rfl, hdd' ▸ hdd6⟩
            · exact h1 kv hkv' dd' hdd'
          · intro d hd
            by_cases hdq : d = dd
            · subst hdq
              have hct : (validExt fn && decide ((parse_dates_from_filename fn).1 = some d)) = true := by
                simp [hv, hparse]
              rw [storeAssoc_lookup_self, candidatesOf_append, hct, if_pos rfl,
                keepBest_append, hkb]
              have hlt : jvIntOfFile b < jvIntOfFile fn := by
                rw [← holdjv]
                exact hcmp
              simp only [kbStep, if_pos hlt, Option.map_some']
              simp [entryOfFile, hparse, jvIntOfFile]
            · rw [storeAssoc_lookup_ne _ _ _ _ hdq, candidatesOf_append]
              have hcf : decide ((parse_dates_from_filename fn).1 = some d) = false := by
                simp only [hparse, decide_eq_false_iff_not, Option.some.injEq]
                exact fun hx => hdq hx.symm
              simpa [hcf] using h2 d hd
        · have hstep : pickStep m fn = m := by
            simp [pickStep, hv, hparse, hlook, hcmp]
          rw [hstep]
          refine ⟨h0, h1, ?_⟩
          intro d hd
          by_cases hdq : d = dd
          · subst hdq
            have hct : (validExt fn && decide ((parse_dates_from_filename fn).1 = some d)) = true := by
              simp [hv, hparse]
            rw [candidatesOf_append, hct, if_pos rfl, keepBest_append, hkb]
            have hnlt : ¬ jvIntOfFile b < jvIntOfFile fn := by
              rw [← holdjv]
              exact hcmp
            simp only [kbStep, if_neg hnlt]
            rw [hlook, hold]
            rfl
          · rw [candidatesOf_append]
            have hcf : decide ((parse_dates_from_filename fn).1 = some d) = false := by
              simp only [hparse, decide_eq_false_iff_not, Option.some.injEq]
              exact fun hx => hdq hx.symm
            simpa [hcf] using h2 d hd

theorem selInv_foldl (rest : List String) :
    ∀ (p : List String) (m : List (String × ChosenEntry)),
      SelInv p m → SelInv (p ++ rest) (rest.foldl pickStep m) := by
  induction rest with
  | nil =>
    intro p m h
    simpa using h
  | cons fn rest' ih =>
    intro p m h
    have h' := ih (p ++ [fn]) (pickStep m fn) (selInv_step p m fn h)
    simpa [List.append_assoc] using h'

theorem selInv_final (files : List String) : SelInv files (files.foldl pickStep []) := by
  have h := selInv_foldl files [] [] selInv_nil
  simpa using h

theorem assoc_filter_nil (m : List (String × ChosenEntry)) (d : String)
    (h1 : ∀ kv ∈ m, ∀ dd, kv.2.d_date = some dd → kv.1 = dd)
    (hlook : m.lookup d = none) :
    m.filter (fun kv => kv.2.d_date == some d) = [] := by
  rw [List.filter_eq_nil_iff]
  intro kv hkv
  simp only [beq_iff_eq]
  intro hc
  exact lookup_eq_none_keys m d hlook kv hkv (h1 kv hkv d hc)

theorem assoc_filter_singleton (m : List (String × ChosenEntry)) (d : String) (v : ChosenEntry)
    (h0 : (m.map Prod.fst).Nodup)
    (h1 : ∀ kv ∈ m, ∀ dd, kv.2.d_date = some dd → kv.1 = dd)
    (hlook : m.lookup d = some v) (hv : v.d_date = some d) :
    m.filter (fun kv => kv.2.d_date == some d) = [(d, v)] := by
  induction m with
  | nil => simp [List.lookup] at hlook
  | cons kv0 rest ih =>
    obtain ⟨k0, v0⟩ := kv0
    simp only [List.lookup] at hlook
    simp only [List.map_cons, List.nodup_cons] at h0
    rcases hbeq : (d == k0) with _ | _
    · rw [hbeq] at hlook
      have hk0 : k0 ≠ d := by
        intro h
        rw [h] at hbeq
        simp at hbeq
      have hhead : ((v0.d_date == some d) = false) := by
        rw [Bool.eq_false_iff]
        intro hc
        simp only [beq_iff_eq] at hc
        exact hk0 (h1 (k0, v0) (List.mem_cons_self _ _) d hc)
      rw [List.filter_cons]
      simp only [hhead, Bool.false_eq_true, if_false]
      exact ih h0.2 (fun kv hkv dd hdd => h1 kv (List.mem_cons_of_mem _ hkv) dd hdd) hlook
    · rw [hbeq] at hlook
      simp only [Option.some.injEq] at hlook
      have hk : d = k0 := by simpa using hbeq
      subst hk
      subst hlook
      rw [List.filter_cons]
      simp only [hv, beq_self_eq_true, if_pos]
      congr 1
      rw [List.filter_eq_nil_iff]
      intro kv hkv
      simp only [beq_iff_eq]
      intro hc
      exact h0.1
        (by rw [← h1 kv (List.mem_cons_of_mem _ hkv) d hc]; exact List.mem_map_of_mem _ hkv)

theorem selector_keeps (files : List String) (d : String) (b : String)
    (hb : keepBest (candidatesOf files d) = some b) :
    (pick_latest_files_by_duplicate_d_date files).filter (fun e => e.d_date == some d)
      = [⟨b, some d, (parse_dates_from_filename b).2⟩] := by
  obtain ⟨hmem, _⟩ := keepBest_max _ _ hb
  have hbparse : (parse_dates_from_filename b).1 = some d := by
    have h := hmem
    simp only [candidatesOf, List.mem_filter, Bool.and_eq_true, decide_eq_true_eq] at h
    exact h.2.2
  have hd6 : d.data.length = 6 := parse_d_length b d hbparse
  obtain ⟨h0, h1, h2⟩ := selInv_final files
  have hlook : (files.foldl pickStep []).lookup d = some (entryOfFile b) := by
    rw [h2 d hd6, hb]
    rfl
  have h1' : ∀ kv ∈ files.foldl pickStep [], ∀ dd, kv.2.d_date = some dd → kv.1 = dd :=
    fun kv hkv dd hdd => (h1 kv hkv dd hdd).1
  have hfilter : (files.foldl pickStep []).filter (fun kv => kv.2.d_date == some d)
      = [(d, entryOfFile b)] :=
    assoc_filter_singleton _ d (entryOfFile b) h0 h1' hlook (by simp [entryOfFile, hbparse])
  show List.filter (fun e => e.d_date == some d)
      ((((files.foldl pickStep []).map toPicked)).mergeSort
        (fun a b => decide (sortKeyOf a ≤ sortKeyOf b)))
    = [⟨b, some d, (parse_dates_from_filename b).2⟩]
  have hperm : (List.filter (fun e => e.d_date == some d)
      ((((files.foldl pickStep []).map toPicked)).mergeSort
        (fun a b => decide (sortKeyOf a ≤ sortKeyOf b)))).Perm
      (List.filter (fun e => e.d_date == some d) ((files.foldl pickStep []).map toPicked)) :=
    List.Perm.filter _ (List.mergeSort_perm _ _)
  have hfilter2 : List.filter ((fun e : PickedFile => e.d_date == some d) ∘ toPicked)
      (files.foldl pickStep []) = [(d, entryOfFile b)] := hfilter
  rw [List.filter_map, hfilter2] at hperm
  rw [List.map_singleton] at hperm
  rw [List.perm_singleton] at hperm
  rw [hperm]
  simp [toPicked, entryOfFile, hbparse]

/-- C4: for every input list of recognized files, among the files sharing
a given `dateA` the selector keeps exactly one entry, one whose `jv_int`
(the numeric `dateB`, with absent or non-digit `dateB` valued `-1`, below
every 6-digit date) is largest; and of two files sharing `dateA` with
`dateB` values `251221` and `251220`, only the `251221` file survives. -/
theorem latest_file_selector_spec :
    (∀ (files : List String) (d : String), candidatesOf files d ≠ [] →
      ∃ b, keepBest (candidatesOf files d) = some b ∧ b ∈ candidatesOf files d ∧
        (∀ x ∈ candidatesOf files d, jvIntOfFile x ≤ jvIntOfFile b) ∧
        (pick_latest_files_by_duplicate_d_date files).filter (fun e => e.d_date == some d)
          = [⟨b, some d, (parse_dates_from_filename b).2⟩]) ∧
    (pick_latest_files_by_duplicate_d_date
        ["GLJV20251221_A-D251110.csv", "GLJV20251220_B-D251110.csv"]).filter
        (fun e => e.d_date == some "251110")
      = [⟨"GLJV20251221_A-D251110.csv", some "251110", some "251221"⟩] := by
  constructor
  · intro files d hne
    obtain ⟨b, hb, g1, g2, hsplit, hlt, hle⟩ := keepBest_spec _ hne
    exact ⟨b, hb, (keepBest_max _ _ hb).1, (keepBest_max _ _ hb).2,
      selector_keeps files d b hb⟩
  · have h := selector_keeps ["GLJV20251221_A-D251110.csv", "GLJV20251220_B-D251110.csv"]
      "251110" "GLJV20251221_A-D251110.csv" (by decide)
    rw [show (parse_dates_from_filename "GLJV20251221_A-D251110.csv").2 = some "251221" from
      by decide] at h
    exact h

theorem latest_file_selector_spec_witness :
    candidatesOf ["X-D999999.csv"] "999999" ≠ [] ∧
    (∃ b, keepBest (candidatesOf ["X-D999999.csv"] "999999") = some b ∧
      b ∈ candidatesOf ["X-D999999.csv"] "999999" ∧
      (∀ x ∈ candidatesOf ["X-D999999.csv"] "999999", jvIntOfFile x ≤ jvIntOfFile b) ∧
      (pick_latest_files_by_duplicate_d_date ["X-D999999.csv"]).filter
          (fun e => e.d_date == some "999999")
        = [⟨b, some "999999", (parse_dates_from_filename b).2⟩]) :=
  ⟨by decide, latest_file_selector_spec.1 ["X-D999999.csv"] "999999" (by decide)⟩

/-- C10: when recognized files share a `dateA`, the kept file is the first
in input order whose `jv_int` is never strictly exceeded afterwards: every
file before it in the group has strictly smaller `jv_int` (a later file
replaces an earlier one only when strictly larger) and every file after it
has `jv_int` at most its own (ties keep the earlier file). -/
theorem selector_tie_first_seen :
    ∀ (files : List String) (d b : String),
      keepBest (candidatesOf files d) = some b →
      ∃ g1 g2, candidatesOf files d = g1 ++ b :: g2 ∧
        (∀ x ∈ g1, jvIntOfFile x < jvIntOfFile b) ∧
        (∀ x ∈ g2, jvIntOfFile x ≤ jvIntOfFile b) ∧
        (pick_latest_files_by_duplicate_d_date files).filter (fun e => e.d_date == some d)
          = [⟨b, some d, (parse_dates_from_filename b).2⟩] := by
  intro files d b hb
  have hne : candidatesOf files d ≠ [] := by
    intro h
    rw [h] at hb
    simp [keepBest] at hb
  obtain ⟨b', hb', g1, g2, hsplit, h1, h2⟩ := keepBest_spec _ hne
  rw [hb] at hb'
  obtain rfl : b = b' := by injection hb'
  exact ⟨g1, g2, hsplit, h1, h2, selector_keeps files d b hb⟩

theorem selector_tie_first_seen_witness :
    keepBest (candidatesOf ["GLJV20251221_A-D251110.csv", "GLJV20251221_B-D251110.csv"]
        "251110") = some "GLJV20251221_A-D251110.csv" ∧
    (∃ g1 g2,
      candidatesOf ["GLJV20251221_A-D251110.csv", "GLJV20251221_B-D251110.csv"] "251110"
        = g1 ++ "GLJV20251221_A-D251110.csv" :: g2 ∧
      (∀ x ∈ g1, jvIntOfFile x < jvIntOfFile "GLJV20251221_A-D251110.csv") ∧
      (∀ x ∈ g2, jvIntOfFile x ≤ jvIntOfFile "GLJV20251221_A-D251110.csv") ∧
      (pick_latest_files_by_duplicate_d_date
          ["GLJV20251221_A-D251110.csv", "GLJV20251221_B-D251110.csv"]).filter
          (fun e => e.d_date == some "251110")
        = [⟨"GLJV20251221_A-D251110.csv", some "251110",
            (parse_dates_from_filename "GLJV20251221_A-D251110.csv").2⟩]) :=
  ⟨by decide,
   selector_tie_first_seen ["GLJV20251221_A-D251110.csv", "GLJV20251221_B-D251110.csv"]
     "251110" "GLJV20251221_A-D251110.csv" (by decide)⟩

/-! ## C7: report row counts -/

theorem afterLastSep_eq_none (sep : Char) :
    ∀ l : List Char, (∀ c ∈ l, c ≠ sep) → afterLastSep sep l = none := by
  intro l
  induction l with
  | nil => intro _; rfl
  | cons c rest ih =>
    intro h
    simp only [afterLastSep]
    rw [ih (fun c hc => h c (List.mem_cons_of_mem _ hc))]
    rw [if_neg (h c (List.mem_cons_self _ _))]

theorem afterLastSep_append (sep : Char) (a d : List Char) (hd : ∀ c ∈ d, c ≠ sep) :
    afterLastSep sep (a ++ sep :: d) = some d := by
  induction a with
  | nil =>
    simp only [List.nil_append, afterLastSep]
    rw [afterLastSep_eq_none sep d hd]
    simp
  | cons x a' ih =>
    have hx : (x :: a') ++ sep :: d = x :: (a' ++ sep :: d) := rfl
    rw [hx]
    simp only [afterLastSep, ih]

theorem takeWhile_of_all (p : Char → Bool) :
    ∀ l : List Char, (∀ c ∈ l, p c = true) → l.takeWhile p = l := by
  intro l
  induction l with
  | nil => intro _; rfl
  | cons c rest ih =>
    intro h
    simp only [List.takeWhile_cons, h c (List.mem_cons_self _ _), if_pos]
    rw [ih (fun c hc => h c (List.mem_cons_of_mem _ hc))]

theorem dropWhile_of_all (p : Char → Bool) :
    ∀ l : List Char, (∀ c ∈ l, p c = true) → l.dropWhile p = [] := by
  intro l
  induction l with
  | nil => intro _; rfl
  | cons c rest ih =>
    intro h
    simp only [List.dropWhile_cons, h c (List.mem_cons_self _ _), if_pos]
    exact ih (fun c hc => h c (List.mem_cons_of_mem _ hc))

theorem extractK_key (s : String) (k : Nat) : extractK (s ++ "|" ++ natStr k) = some k := by
  have hdata : (s ++ "|" ++ natStr k).data = s.data ++ '|' :: decChars k := by
    simp [String.data_append, bar_data, natStr_data]
  simp only [extractK, hdata]
  rw [afterLastSep_append '|' s.data (decChars k) (decChars_no_bar k)]
  have hne : (decChars k).isEmpty = false := by
    rw [List.isEmpty_eq_false]
    exact decChars_ne_nil k
  simp [takeWhile_of_all Char.isDigit (decChars k) (decChars_all_digits k),
    dropWhile_of_all Char.isDigit (decChars k) (decChars_all_digits k),
    hne, parseDigits_decChars]

theorem count_take_succ (l : List String) (i : Nat) (h : i < l.length) :
    (l.take (i + 1)).count (l.getD i "") = (l.take i).count (l.getD i "") + 1 := by
  have hone : List.count (l[i]) ((some l[i]).toList) = 1 := by simp
  rw [List.take_succ, List.getElem?_eq_getElem h, List.getD_eq_getElem l "" h,
    List.count_append, hone]

theorem filterMap_extractK_zip :
    ∀ (ls : List String) (cs : List Nat),
      (List.zipWith (fun s c => s ++ "|" ++ natStr (c + 1)) ls cs).filterMap extractK
        = (cs.take ls.length).map (· + 1) := by
  intro ls
  induction ls with
  | nil => intro cs; simp
  | cons s ls' ih =>
    intro cs
    cases cs with
    | nil => simp
    | cons c cs' =>
      simp only [List.zipWith_cons_cons, List.filterMap_cons, extractK_key,
        List.length_cons, List.take_succ_cons, List.map_cons]
      rw [ih cs']

theorem ranks_eq (l : List String) :
    (cumcountAux [] l).map (· + 1)
      = (List.range l.length).map (fun i => (l.take (i + 1)).count (l.getD i "")) := by
  apply List.ext_getElem
  · simp [length_cumcountAux]
  · intro n h1 h2
    have hn : n < l.length := by
      simpa [length_cumcountAux] using h1
    have hc : n < (cumcountAux [] l).length := by
      rw [length_cumcountAux]
      exact hn
    rw [List.getElem_map, List.getElem_map, List.getElem_range]
    rw [← List.getD_eq_getElem _ 0 hc, cumcountAux_getD [] l n hn]
    rw [count_take_succ l n hn]
    simp

theorem foldl_max_init_le : ∀ (ns : List Nat) (a : Nat), a ≤ ns.foldl Nat.max a := by
  intro ns
  induction ns with
  | nil => intro a; exact le_refl a
  | cons n ns' ih =>
    intro a
    calc a ≤ Nat.max a n := Nat.le_max_left a n
      _ ≤ ns'.foldl Nat.max (Nat.max a n) := ih _

theorem mem_le_foldl_max : ∀ (ns : List Nat) (a x : Nat), x ∈ ns → x ≤ ns.foldl Nat.max a := by
  intro ns
  induction ns with
  | nil => intro a x hx; simp at hx
  | cons n ns' ih =>
    intro a x hx
    rcases List.mem_cons.mp hx with rfl | hx
    · calc x ≤ Nat.max a x := Nat.le_max_right a x
        _ ≤ ns'.foldl Nat.max (Nat.max a x) := foldl_max_init_le ns' _
    · exact ih _ x hx

theorem max_k_buildRowKeys (l : List String) (h : l ≠ []) :
    max_k_from_searchkey (buildRowKeys l) = specMaxRank l := by
  have hfm : (buildRowKeys l).filterMap extractK
      = ((cumcountAux [] l).take l.length).map (· + 1) :=
    filterMap_extractK_zip l (cumcountAux [] l)
  have htake : (cumcountAux [] l).take l.length = cumcountAux [] l :=
    List.take_of_length_le (by rw [length_cumcountAux])
  rw [htake] at hfm
  have hne : ((cumcountAux [] l).map (· + 1)).isEmpty = false := by
    rw [List.isEmpty_eq_false]
    simp only [ne_eq, List.map_eq_nil_iff]
    intro hc
    apply h
    have := length_cumcountAux [] l
    rw [hc] at this
    exact List.length_eq_zero.mp this.symm
  simp only [max_k_from_searchkey, hfm, hne, Bool.false_eq_true, if_false]
  rw [ranks_eq l]
  rfl

/-- C7: for a nonempty table whose RowKey column was built, the number of
report rows written equals the maximum of the fixed floor (2 for the
database table, 10 for the source table) and the maximum duplicate rank
occurring in the RowKey column, so every row's rank has a report row. -/
theorem report_rows_spec (l : List String) (h : l ≠ []) :
    dbReportRowCount l = Nat.max tlf_reserved_rows (specMaxRank l) ∧
    glReportRowCount l = Nat.max gl_reserved_rows (specMaxRank l) ∧
    (∀ i, i < l.length →
      (l.take (i + 1)).count (l.getD i "") ≤ dbReportRowCount l ∧
      (l.take (i + 1)).count (l.getD i "") ≤ glReportRowCount l) := by
  have hemp : l.isEmpty = false := by
    rw [List.isEmpty_eq_false]
    exact h
  have hdb : dbReportRowCount l = Nat.max tlf_reserved_rows (specMaxRank l) := by
    simp only [dbReportRowCount, hemp, Bool.false_eq_true, if_false,
      effectiveDbReservedRows, max_k_buildRowKeys l h]
  have hgl : glReportRowCount l = Nat.max gl_reserved_rows (specMaxRank l) := by
    simp only [glReportRowCount, hemp, Bool.false_eq_true, if_false,
      effectiveGlReservedRows, max_k_buildRowKeys l h]
  refine ⟨hdb, hgl, ?_⟩
  intro i hi
  have hrank : (l.take (i + 1)).count (l.getD i "") ≤ specMaxRank l := by
    apply mem_le_foldl_max
    rw [List.mem_map]
    exact ⟨i, List.mem_range.mpr hi, rfl⟩
  constructor
  · rw [hdb]
    exact le_trans hrank (Nat.le_max_right _ _)
  · rw [hgl]
    exact le_trans hrank (Nat.le_max_right _ _)

theorem report_rows_spec_witness :
    (["A", "A", "A"] : List String) ≠ [] ∧
    (dbReportRowCount ["A", "A", "A"]
        = Nat.max tlf_reserved_rows (specMaxRank ["A", "A", "A"]) ∧
      glReportRowCount ["A", "A", "A"]
        = Nat.max gl_reserved_rows (specMaxRank ["A", "A", "A"]) ∧
      (∀ i, i < (["A", "A", "A"] : List String).length →
        ((["A", "A", "A"] : List String).take (i + 1)).count
            ((["A", "A", "A"] : List String).getD i "") ≤ dbReportRowCount ["A", "A", "A"] ∧
        ((["A", "A", "A"] : List String).take (i + 1)).count
            ((["A", "A", "A"] : List String).getD i "") ≤ glReportRowCount ["A", "A", "A"])) :=
  ⟨by decide, report_rows_spec ["A", "A", "A"] (by decide)⟩

/-! ## C8: database sheet selection -/

theorem find?_congr_pred :
    ∀ (l : List String) (p q : String → Bool), (∀ x ∈ l, p x = q x) →
      l.find? p = l.find? q := by
  intro l
  induction l with
  | nil => intro p q _; rfl
  | cons a rest ih =>
    intro p q hpq
    have ha := hpq a (List.mem_cons_self _ _)
    simp only [List.find?, ha]
    cases hq : q a
    · exact ih p q (fun x hx => hpq x (List.mem_cons_of_mem _ hx))
    · rfl

theorem contains_empty_false (sheets : List String) (h : ∀ s ∈ sheets, s ≠ "") :
    (sheets.contains "") = false := by
  rw [Bool.eq_false_iff]
  intro hc
  exact h _ (List.mem_of_elem_eq_true hc) rfl

/-- C8: the database sheet for a file is found by testing, in order, the
file's `dateA`, then `"D" + dateA`, then the filename-derived fallback,
against the database sheet names, taking the first candidate that is a
sheet name (all sheet names of a real workbook are nonempty, so the code's
extra truthiness test never changes the outcome); when no candidate
matches, the database table stays the empty frame. -/
theorem db_sheet_selection_spec (d : Option String) (fallback : String)
    (sheets : List String) (readSheet : String → List (List String))
    (hs : ∀ s ∈ sheets, s ≠ "") :
    pickDbSheet d fallback sheets
        = (dbLookupCandidates d fallback).find? (fun c => sheets.contains c) ∧
    (pickDbSheet d fallback sheets = none →
      dbTableFor (pickDbSheet d fallback sheets) readSheet = []) := by
  constructor
  · apply find?_congr_pred
    intro c _
    by_cases hc : c = ""
    · subst hc
      rw [contains_empty_false sheets hs]
      simp
    · have hce : c.isEmpty = false := by
        rw [Bool.eq_false_iff]
        intro hce
        exact hc ((String.isEmpty_iff c).mp hce)
      rw [hce]
      simp
  · intro hnone
    rw [hnone]
    rfl

theorem db_sheet_selection_spec_witness :
    (∀ s ∈ (["D251110", "X"] : List String), s ≠ "") ∧
    (pickDbSheet (some "251110") "F" ["D251110", "X"]
        = (dbLookupCandidates (some "251110") "F").find?
            (fun c => (["D251110", "X"] : List String).contains c) ∧
      (pickDbSheet (some "251110") "F" ["D251110", "X"] = none →
        dbTableFor (pickDbSheet (some "251110") "F" ["D251110", "X"]) (fun _ => [["r"]]) = [])) :=
  ⟨by decide,
   db_sheet_selection_spec (some "251110") "F" ["D251110", "X"] (fun _ => [["r"]]) (by decide)⟩

/-! ## C6: per-file failure isolation -/

/-- C6 counterexample: the stated claim says a failed file leaves no sheet,
but the sheet is created at line 324 inside the `try`, before the layout is
written; an exception during layout writing is swallowed at lines 545-547
with the already-created sheet still in the workbook. -/
theorem failure_isolation_counterexample :
    (SourceSpec.mk "S1" FailPoint.layoutFail).failAt ≠ FailPoint.noFail ∧
    processAll [] [SourceSpec.mk "S1" FailPoint.layoutFail] = ["S1"] := by
  constructor
  · decide
  · rfl

/-- C6 (amended): an exception while processing one file is caught and the
remaining files are still processed; the workbook contains no sheet for the
failed file when the exception is raised while loading, before the sheet is
created, while an exception raised after the sheet is created (during
layout writing) leaves the created sheet in the workbook. -/
theorem failure_isolation_spec (book : List String) (f : SourceSpec) (fs : List SourceSpec) :
    processAll book (f :: fs) = processAll (processOneFile book f) fs ∧
    (f.failAt = FailPoint.loadFail → processOneFile book f = book) ∧
    (f.failAt ≠ FailPoint.loadFail →
      processOneFile book f = book ++ [make_unique_sheet_name book f.name]) := by
  refine ⟨rfl, ?_, ?_⟩
  · intro h
    simp [processOneFile, h]
  · intro h
    cases hf : f.failAt with
    | noFail => simp [processOneFile, hf]
    | loadFail => exact absurd hf h
    | layoutFail => simp [processOneFile, hf]

theorem failure_isolation_spec_witness :
    processOneFile [] (SourceSpec.mk "S2" FailPoint.loadFail) = [] :=
  (failure_isolation_spec [] (SourceSpec.mk "S2" FailPoint.loadFail) []).2.1 rfl

/-! ## C9: determinism -/

/-- C9: the processing pipeline is a pure function of its inputs: two runs
on equal inputs (same file list, database sheet names and file contents)
produce the same sheet names and the same cell values. -/
theorem pipeline_deterministic (i1 i2 : RunInput) (h : i1 = i2) :
    (runWorkbook i1).1 = (runWorkbook i2).1 ∧ (runWorkbook i1).2 = (runWorkbook i2).2 := by
  rw [h]
  exact ⟨rfl, rfl⟩

theorem pipeline_deterministic_witness :
    (runWorkbook ⟨["a-D251110.csv"], ["D251110"], fun _ => ["1"]⟩).1
        = (runWorkbook ⟨["a-D251110.csv"], ["D251110"], fun _ => ["1"]⟩).1 ∧
    (runWorkbook ⟨["a-D251110.csv"], ["D251110"], fun _ => ["1"]⟩).2
        = (runWorkbook ⟨["a-D251110.csv"], ["D251110"], fun _ => ["1"]⟩).2 :=
  pipeline_deterministic ⟨["a-D251110.csv"], ["D251110"], fun _ => ["1"]⟩
    ⟨["a-D251110.csv"], ["D251110"], fun _ => ["1"]⟩ rfl
